import Mathlib

/-!
# Verification of the layer classifier of `why-react-code-looks-like-that`

This development shallowly embeds the classification engine of
`src/classifier.ts` (the only component with algorithmic content, per the
spec) and proves the frozen claims about it.

Modelling conventions:
* Source text is a `List Char` (the inputs of interest are ASCII, where
  JavaScript UTF-16 code-unit indexing and code-point indexing coincide).
* `ts.Set` values that are only ever queried for membership
  (`REACT_HOOKS`, `REACT_TYPES`, `REACT_UTILS`, `REACT_JSX_ATTRIBUTES`,
  `REACT_DIRECTIVES`, and the per-call `enumNames`) are modelled as lists
  queried with `List.contains`.
* The parser (`ts.createSourceFile`) is an external collaborator (spec §2,
  §6): the classifier consumes its output tree.  The tree is therefore an
  input of the embedded `classifyDocument`, a deep `Node` datatype whose
  constructors carry exactly the fields of `ts.Node` that `classifier.ts`
  reads (offsets, callee text, modifier flags, ...).  The node kinds are
  the ones exercised by the verified claims; every modelled kind follows
  the corresponding branch of `visit` in the source, in source order.
* The JavaScript sweep arrays `positionMap`/`priorityMap` of
  `resolveOverlaps` are modelled as a function from offsets to the final
  array cell: for a fixed offset, the writes performed by the region-major
  loops happen exactly in region order, so the cell value is a left fold
  of the per-region update over the candidate list.
* All functions are total, mirroring the code, which has no `throw` and
  no error values (spec §7).
-/

namespace Classifier

/-- The four origin layers (`SyntaxLayer` in `src/types.ts`). -/
inductive SyntaxLayer where
  | javascript
  | typescript
  | jsx
  | react
deriving DecidableEq, Repr

open SyntaxLayer

/-- `PRIORITY` table of `classifier.ts`: higher number wins when regions
overlap (javascript 1, jsx 2, typescript 3, react 4). -/
def PRIORITY : SyntaxLayer → Nat
  | .javascript => 1
  | .jsx => 2
  | .typescript => 3
  | .react => 4

/-- `RawRegion` of `classifier.ts`: a candidate region. `end` is a Lean
keyword, so the field is named `end_`. -/
structure RawRegion where
  start : Nat
  end_ : Nat
  layer : SyntaxLayer
  priority : Nat
deriving DecidableEq, Repr

/-- `ClassifiedRegion` of `src/types.ts`: a final output region. -/
structure ClassifiedRegion where
  start : Nat
  end_ : Nat
  layer : SyntaxLayer
deriving DecidableEq, Repr

/-! ## Lexical bracket matcher (`classifier.ts` lines 158–210) -/

/-- Loop body of `findOpeningBracket`: `while (pos > 0 && sourceText[pos]
!== '<') { pos--; } return sourceText[pos] === '<' ? pos : -1;`.
Out-of-range indexing yields `undefined`, which is not `'<'`. -/
def fobGo (s : List Char) : Nat → Int
  | 0 => if s[0]? = some '<' then 0 else -1
  | pos + 1 => if s[pos + 1]? = some '<' then ((pos + 1 : Nat) : Int) else fobGo s pos

/-- `findOpeningBracket(sourceText, beforePos)`: scan backwards from
`beforePos` for the nearest `'<'`; `-1` if there is none.  A negative
`beforePos` (callers pass `getStart() - 1`) skips the loop and the final
out-of-range check fails, yielding `-1`. -/
def findOpeningBracket (s : List Char) (beforePos : Int) : Int :=
  if beforePos < 0 then -1 else fobGo s beforePos.toNat

/-- Loop of `findMatchingCloseBracket`: `while (pos < len && depth > 0)`,
incrementing the depth on `'<'`, decrementing on `'>'`.  The first
argument is the text suffix starting at `pos`, so the recursion is
structural. -/
def fmcbGo : List Char → Nat → Nat → Int
  | [], depth, pos => if depth = 0 then (pos : Int) - 1 else -1
  | c :: rest, depth, pos =>
      if depth = 0 then (pos : Int) - 1
      else fmcbGo rest (if c = '<' then depth + 1 else if c = '>' then depth - 1 else depth)
        (pos + 1)

/-- `findMatchingCloseBracket(sourceText, openBracketPos)`: position of the
depth-0 closing `'>'` matching the `'<'` at `openBracketPos`, or `-1`. -/
def findMatchingCloseBracket (s : List Char) (openBracketPos : Nat) : Int :=
  fmcbGo (s.drop (openBracketPos + 1)) 1 (openBracketPos + 1)

/-- `findTypeParameterListRange(typeParameters, sourceText, sourceFile)`:
the argument is the start offset of the first type parameter (`null` when
`typeParameters.length === 0`); the result is the `[start, end]` range of
the angle-bracket list, or `null` when either scan fails. -/
def findTypeParameterListRange (firstParamStart : Option Nat) (s : List Char) :
    Option (Nat × Nat) :=
  match firstParamStart with
  | none => none
  | some fp =>
      let openBracket := findOpeningBracket s ((fp : Int) - 1)
      if openBracket = -1 then none
      else
        let closeBracket := findMatchingCloseBracket s openBracket.toNat
        if closeBracket = -1 then none
        else some (openBracket.toNat, closeBracket.toNat + 1)

/-! ## Overlap resolver (`classifier.ts` lines 1171–1220) -/

/-- Does candidate `r` cover offset `p`?  The inner loop of
`resolveOverlaps` touches exactly the offsets `region.start ≤ i <
region.end` (further clipped to `i < textLength` by the loop guard). -/
def coversB (r : RawRegion) (p : Nat) : Bool := r.start ≤ p && p < r.end_

/-- One write attempt of the sweep at offset `p`: overwrite the recorded
`(layer, priority)` cell only when the candidate covers `p` and its
priority is strictly greater than the recorded one. -/
def stepAt (p : Nat) (acc : Option SyntaxLayer × Nat) (r : RawRegion) :
    Option SyntaxLayer × Nat :=
  if coversB r p && acc.2 < r.priority then (some r.layer, r.priority) else acc

/-- Final cell of the `positionMap`/`priorityMap` arrays at offset `p`:
the candidates write in emission order, starting from `(null, 0)`. -/
def positionMap (rawRegions : List RawRegion) (p : Nat) : Option SyntaxLayer × Nat :=
  rawRegions.foldl (stepAt p) (none, 0)

/-- Close the current run, if one is open (the `if (currentLayer !==
null) result.push(...)` steps of the merge pass). -/
def closeRun (cur : Option SyntaxLayer) (curStart i : Nat)
    (acc : List ClassifiedRegion) : List ClassifiedRegion :=
  match cur with
  | some l => acc ++ [⟨curStart, i, l⟩]
  | none => acc

/-- The merge pass of `resolveOverlaps`: one left-to-right sweep over the
offsets `0, …, textLength - 1` (passed as the list `ps`), merging maximal
runs of identical recorded layer; unrecorded offsets produce no region. -/
def mergeLoop (f : Nat → Option SyntaxLayer) (len : Nat)
    (cur : Option SyntaxLayer) (curStart : Nat) (acc : List ClassifiedRegion) :
    List Nat → List ClassifiedRegion
  | [] => closeRun cur curStart len acc
  | i :: rest =>
      if f i = cur then mergeLoop f len cur curStart acc rest
      else mergeLoop f len (f i) i (closeRun cur curStart i acc) rest

/-- `resolveOverlaps(rawRegions, textLength)`. -/
def resolveOverlaps (rawRegions : List RawRegion) (textLength : Nat) :
    List ClassifiedRegion :=
  if rawRegions.isEmpty || textLength = 0 then []
  else mergeLoop (fun p => (positionMap rawRegions p).1) textLength none 0 []
      (List.range textLength)

/-! ## Name sets (`classifier.ts` lines 4–123)

Only membership is ever queried, so the sets are lists with
`List.contains`.  `REACT_TYPES` is omitted: it is read only by the
type-only import/export, heritage-clause, and type-reference branches,
none of which a frozen claim touches. -/

def REACT_HOOKS : List String :=
  ["useState", "useEffect", "useContext", "useReducer", "useCallback", "useMemo",
   "useRef", "useImperativeHandle", "useLayoutEffect", "useDebugValue",
   "useDeferredValue", "useTransition", "useId", "useSyncExternalStore",
   "useInsertionEffect", "use"]

def REACT_UTILS : List String :=
  ["memo", "forwardRef", "lazy", "createContext", "createRef", "cloneElement",
   "isValidElement", "createElement", "Children", "Fragment", "Suspense",
   "StrictMode", "Profiler"]

def REACT_DIRECTIVES : List String := ["use client", "use server"]

/-- `isPascalCase` (line 1164): `/^[A-Z][a-zA-Z0-9]*$/`. -/
def isPascalCase (name : String) : Bool :=
  match name.toList with
  | [] => false
  | c :: rest =>
      ('A' ≤ c && c ≤ 'Z') &&
        rest.all fun d => ('a' ≤ d && d ≤ 'z') || ('A' ≤ d && d ≤ 'Z') || ('0' ≤ d && d ≤ '9')

/-- The qualified-hook test of line 983: `/^React\.use([A-Z]|$)/`. -/
def isQualifiedReactHook (callee : String) : Bool :=
  callee.startsWith "React.use" &&
    (callee.length = 9 ||
      (match callee.toList[9]? with
       | some c => 'A' ≤ c && c ≤ 'Z'
       | none => false))

/-! ## The syntax tree

The parser is an external collaborator (spec §2/§6), so the tree is an
input.  Each constructor carries the fields of the corresponding
`ts.Node` shape that `classifier.ts` reads: `getStart()`/`getEnd()`
offsets, and kind-specific data.  `children` is the list that
`ts.forEachChild` enumerates.  The modelled kinds are the ones the
claims exercise; `plainNode` stands for any node kind that matches no
special case and appears in none of the `classifyNode` category tables. -/

inductive Node where
  | sourceFile (start end_ : Nat) (statements : List Node)
  /-- `ExpressionStatement`; `stringLiteralText` is the literal's text when
  the expression is a string literal (the directive-prologue shape). -/
  | expressionStatement (start end_ : Nat) (stringLiteralText : Option String)
      (children : List Node)
  | decorator (start end_ : Nat)
  /-- `VariableStatement`; `hasDeclare` is the `declare`-modifier test,
  `isUsing` the `NodeFlags.Using` test, `declListStart` is
  `declarationList.getStart()`, `firstDeclStart` the start of
  `declarations[0]` when present. -/
  | variableStatement (start end_ : Nat) (hasDeclare isUsing : Bool)
      (declListStart : Nat) (firstDeclStart : Option Nat) (children : List Node)
  /-- `VariableDeclaration`; `typeColonSpan = some (colonStart, typeEnd)`
  when `node.type` exists and `findColonToken` finds the colon. -/
  | variableDeclaration (start end_ : Nat) (typeColonSpan : Option (Nat × Nat))
      (children : List Node)
  /-- `EnumDeclaration`; the source guards `if (node.name)`. -/
  | enumDeclaration (start end_ : Nat) (name : Option String)
  /-- `PropertyAccessExpression`; `baseIdentifier = some t` when
  `node.expression` is an identifier with text `t`. -/
  | propertyAccessExpression (start end_ : Nat) (baseIdentifier : Option String)
      (children : List Node)
  /-- `CallExpression`; `calleeText` is `node.expression.getText()`,
  `calleeStart`/`calleeEnd` its offsets, `firstTypeArgStart` the start of
  `typeArguments[0]` when the list is nonempty, `args` is
  `node.arguments`. -/
  | callExpression (start end_ : Nat) (calleeText : String)
      (calleeStart calleeEnd : Nat) (firstTypeArgStart : Option Nat)
      (args : List Node) (children : List Node)
  | objectLiteralExpression (start end_ : Nat) (properties : List Node)
  /-- `PropertyAssignment`; `nameIdentifier = some t` when the name is an
  identifier with text `t`, with its offsets. -/
  | propertyAssignment (start end_ : Nat) (nameIdentifier : Option String)
      (nameStart nameEnd : Nat) (children : List Node)
  | identifier (start end_ : Nat) (text : String)
  | numericLiteral (start end_ : Nat)
  | stringLiteral (start end_ : Nat)
  | plainNode (start end_ : Nat) (children : List Node)

/-! ## Region collector (`classifier.ts` lines 212–1124) -/

/-- The mutable state of one `classifyDocument` call: the tracked
`enumNames` set and the emitted `rawRegions`, both allocated fresh per
call (lines 221–224). -/
structure CollectorState where
  enumNames : List String
  rawRegions : List RawRegion
deriving DecidableEq, Repr

/-- `addRegion(start, end, layer)` (lines 226–230): drop degenerate
candidates, attach the static priority. -/
def addRegion (start end_ : Nat) (layer : SyntaxLayer) (st : CollectorState) :
    CollectorState :=
  if start < end_ then
    { st with rawRegions := st.rawRegions ++ [⟨start, end_, layer, PRIORITY layer⟩] }
  else st

/-- Record an enum name (line 508): `ts.Set.add`. -/
def trackEnumName (n : String) (st : CollectorState) : CollectorState :=
  { st with
    enumNames := if st.enumNames.contains n then st.enumNames else st.enumNames ++ [n] }

/-- First-argument handling of the `React.createElement` branch
(lines 1023–1043). -/
def createElementFirstArg (args : List Node) (st : CollectorState) : CollectorState :=
  match args with
  | [] => st
  | firstArg :: _ =>
      match firstArg with
      | .identifier s e t => if isPascalCase t then addRegion s e .react st else st
      | .propertyAccessExpression s e (some "React") _ => addRegion s e .react st
      | _ => st

/-- One property of the props object in the `React.createElement`
branch (lines 1048–1058): a property assignment whose name is the
identifier `key` gets a React candidate over the name span. -/
def keyPropStep (st : CollectorState) (p : Node) : CollectorState :=
  match p with
  | .propertyAssignment _ _ (some "key") ns ne _ => addRegion ns ne .react st
  | _ => st

/-- `key`-prop handling of the `React.createElement` branch
(lines 1045–1059). -/
def createElementKeyProps (args : List Node) (st : CollectorState) : CollectorState :=
  match args[1]? with
  | some (Node.objectLiteralExpression _ _ props) => props.foldl keyPropStep st
  | _ => st

mutual

/-- The recursive walk `visit` (lines 232–1115), restricted to the
modelled node kinds.  Branches appear in source order; a branch that
`return`s in the source does not descend, the others end with
`visitList` on the `forEachChild` children.  Kinds matching no special
case fall through to the `classifyNode` category table. -/
def visit (text : List Char) : Node → CollectorState → CollectorState
  | .decorator s e, st =>
      -- lines 432–435: whole decorator span is TypeScript, no descent
      addRegion s e .typescript st
  | .expressionStatement s e (some lit) _children, st =>
      -- lines 439–448: directive prologue
      if REACT_DIRECTIVES.contains lit then addRegion s e .react st
      else addRegion s e .javascript st
  | .expressionStatement _ _ none children, st =>
      -- no special case fires and ExpressionStatement is in no category
      -- table, so the node itself is unclassified; the walk descends
      visitList text children st
  | .variableStatement s e hasDeclare isUsing declListStart firstDeclStart children, st =>
      -- lines 452–483
      if hasDeclare then addRegion s e .typescript st
      else if isUsing then
        let st :=
          match firstDeclStart with
          | some fd => addRegion declListStart fd .typescript st
          | none => st
        visitList text children (addRegion s e .javascript st)
      else visitList text children (addRegion s e .javascript st)
  | .enumDeclaration s e name, st =>
      -- lines 506–512: track the name, whole span TypeScript, no descent
      let st :=
        match name with
        | some n => trackEnumName n st
        | none => st
      addRegion s e .typescript st
  | .variableDeclaration s e typeColonSpan children, st =>
      match typeColonSpan with
      | some (colonStart, typeEnd) =>
          -- lines 649–657: base JavaScript plus `: Type` TypeScript
          visitList text children
            (addRegion colonStart typeEnd .typescript (addRegion s e .javascript st))
      | none =>
          -- falls through to the category table: VariableDeclaration → JavaScript
          visitList text children (addRegion s e .javascript st)
  | .propertyAccessExpression s e base children, st =>
      -- lines 940–948: tracked enum access is TypeScript whole-span with
      -- no descent; otherwise the category table gives JavaScript
      (match base with
       | some b =>
           if st.enumNames.contains b then addRegion s e .typescript st
           else visitList text children (addRegion s e .javascript st)
       | none => visitList text children (addRegion s e .javascript st))
  | .callExpression s e calleeText calleeStart calleeEnd firstTypeArgStart args children,
    st =>
      -- lines 951–1085
      let st :=
        match firstTypeArgStart with
        | some ft =>
            let openBracket := findOpeningBracket text ((ft : Int) - 1)
            if openBracket ≠ -1 then
              let closeBracket := findMatchingCloseBracket text openBracket.toNat
              if closeBracket ≠ -1 then
                addRegion openBracket.toNat (closeBracket.toNat + 1) .typescript st
              else st
            else st
        | none => st
      if REACT_HOOKS.contains calleeText then
        visitList text children
          (addRegion s e .javascript (addRegion calleeStart calleeEnd .react st))
      else if isQualifiedReactHook calleeText then
        visitList text children
          (addRegion s e .javascript (addRegion calleeStart calleeEnd .react st))
      else if REACT_UTILS.contains calleeText then
        visitList text children
          (addRegion s e .javascript (addRegion calleeStart calleeEnd .react st))
      else if calleeText = "React.createElement" || calleeText = "createElement" then
        let st := addRegion calleeStart calleeEnd .react st
        let st := createElementFirstArg args st
        let st := createElementKeyProps args st
        visitList text children st
      else if calleeText.startsWith "React." then
        visitList text children
          (addRegion s e .javascript (addRegion calleeStart calleeEnd .react st))
      else
        visitList text children (addRegion s e .javascript st)
  | .sourceFile _ _ statements, st =>
      -- SourceFile is in no category table: unclassified, descend
      visitList text statements st
  | .objectLiteralExpression s e properties, st =>
      -- category table: ObjectLiteralExpression → JavaScript, descend
      visitList text properties (addRegion s e .javascript st)
  | .propertyAssignment _ _ _ _ _ children, st =>
      -- PropertyAssignment is in no category table: unclassified, descend
      visitList text children st
  | .identifier s e t, st =>
      -- `classifyNode`: the identifier `React` is React, others JavaScript
      if t = "React" then addRegion s e .react st else addRegion s e .javascript st
  | .numericLiteral s e, st => addRegion s e .javascript st
  | .stringLiteral s e, st => addRegion s e .javascript st
  | .plainNode _ _ children, st => visitList text children st

/-- `ts.forEachChild(node, visit)`: visit the children left to right,
threading the state. -/
def visitList (text : List Char) : List Node → CollectorState → CollectorState
  | [], st => st
  | n :: rest, st => visitList text rest (visit text n st)

end

/-- `collectComments` (lines 1130–1162): the walk extracts the comment
trivia ranges (computed by the external `ts.getLeadingCommentRanges` /
`ts.getTrailingCommentRanges`) and marks every one as JavaScript.  The
ranges, in the order the walk encounters them, are an input. -/
def collectComments (commentRanges : List (Nat × Nat)) (st : CollectorState) :
    CollectorState :=
  commentRanges.foldl (fun st r => addRegion r.1 r.2 .javascript st) st

/-- `classifyDocument` (lines 212–230, 1117–1123): allocate a fresh
collector state, walk the parse tree, collect comments, resolve
overlaps.  The parse tree and comment ranges come from the external
parser. -/
def classifyDocument (tree : Node) (commentRanges : List (Nat × Nat))
    (text : List Char) : List ClassifiedRegion :=
  let st : CollectorState := ⟨[], []⟩
  let st := visit text tree st
  let st := collectComments commentRanges st
  resolveOverlaps st.rawRegions text.length

/-- One classification request: the document text together with the
external parser's outputs for it. -/
structure DocumentInput where
  tree : Node
  commentRanges : List (Nat × Nat)
  text : List Char

def classifyInput (d : DocumentInput) : List ClassifiedRegion :=
  classifyDocument d.tree d.commentRanges d.text

/-- A sequence of classification calls in one process.  The source keeps
no mutable state between calls (`enumNames` and `rawRegions` are local to
`classifyDocument`), so a session is just the per-call results. -/
def runSession (docs : List DocumentInput) : List (List ClassifiedRegion) :=
  docs.map classifyInput

/-! ## Specification-side definitions

These are not translations of program code; they state, declaratively,
what the claims assert, so that the theorems can compare them with the
program functions above. -/

/-- Contribution of one character to the bracket-nesting depth. -/
def bracketDelta (c : Char) : Int := if c = '<' then 1 else if c = '>' then -1 else 0

/-- Nesting depth of the scan started at opening bracket `openPos` just
before processing offset `j`: `1` for the opening `'<'`, plus the deltas
of the characters strictly between `openPos` and `j`. -/
def depthBefore (s : List Char) (openPos j : Nat) : Int :=
  1 + (((s.drop (openPos + 1)).take (j - (openPos + 1))).map bracketDelta).sum

/-- Greatest priority among candidates covering offset `p` (0 if none). -/
def maxCoverPriority (rs : List RawRegion) (p : Nat) : Nat :=
  ((rs.filter fun r => coversB r p).map RawRegion.priority).foldr max 0

/-- The first-emitted candidate covering `p` whose priority is maximal
among the candidates covering `p`. -/
def firstMaxCover (rs : List RawRegion) (p : Nat) : Option RawRegion :=
  rs.find? fun r => coversB r p && r.priority == maxCoverPriority rs p

/-- Ordering constraint between consecutive output regions: the earlier
region stops no later than the later one starts, and when they touch
exactly they carry different layers. -/
def AdjOk (a b : ClassifiedRegion) : Prop :=
  a.end_ ≤ b.start ∧ (a.end_ = b.start → a.layer ≠ b.layer)

mutual

/-- All names of enum declarations occurring anywhere in a subtree
(syntactic collection, used to bound the tracked-name set). -/
def enumNamesIn : Node → List String
  | .sourceFile _ _ statements => enumNamesInList statements
  | .expressionStatement _ _ _ children => enumNamesInList children
  | .decorator _ _ => []
  | .variableStatement _ _ _ _ _ _ children => enumNamesInList children
  | .variableDeclaration _ _ _ children => enumNamesInList children
  | .enumDeclaration _ _ (some n) => [n]
  | .enumDeclaration _ _ none => []
  | .propertyAccessExpression _ _ _ children => enumNamesInList children
  | .callExpression _ _ _ _ _ _ args children => enumNamesInList args ++ enumNamesInList children
  | .objectLiteralExpression _ _ properties => enumNamesInList properties
  | .propertyAssignment _ _ _ _ _ children => enumNamesInList children
  | .identifier _ _ _ => []
  | .numericLiteral _ _ => []
  | .stringLiteral _ _ => []
  | .plainNode _ _ children => enumNamesInList children

def enumNamesInList : List Node → List String
  | [] => []
  | n :: rest => enumNamesIn n ++ enumNamesInList rest

end

/-- The whitespace characters of the inputs at issue in the claims. -/
def isWsChar (c : Char) : Bool := c = ' ' || c = '\t' || c = '\n' || c = '\r'

/-- Parse tree the external parser produces for an empty or
whitespace-only document: a `SourceFile` with no statements, whose only
`forEachChild` child is the `EndOfFileToken` (a node kind that matches no
special case and appears in no category table). -/
def wsParseTree (text : List Char) : Node :=
  .sourceFile 0 text.length [.plainNode text.length text.length []]

/-! ## Concrete parse trees

Each tree is the external parser's output for the quoted document text,
with the fields `classifier.ts` reads filled in from the real
`ts.createSourceFile` node shapes. -/

/-- `"useState(0)"`: one expression statement holding a call whose callee
is the identifier `useState` at `[0,8)`, with the numeric literal `0` at
`[9,10)` as its only argument. -/
def exampleHookText : List Char := "useState(0)".toList

def exampleHookTree : Node :=
  .sourceFile 0 11
    [.expressionStatement 0 11 none
      [.callExpression 0 11 "useState" 0 8 none [.numericLiteral 9 10]
        [.identifier 0 8 "useState", .numericLiteral 9 10]]]

/-- `"x; y"`: two expression statements, each holding one identifier;
whitespace separates them, so their statement spans do not touch. -/
def exampleGapText : List Char := "x; y".toList

def exampleGapTree : Node :=
  .sourceFile 0 4
    [.expressionStatement 0 2 none [.identifier 0 1 "x"],
     .expressionStatement 3 4 none [.identifier 3 4 "y"]]

/-- `"enum E { A }\nE.x;"`: the enum declaration precedes the member
access `E.x` in the walk. -/
def exampleEnumFirstText : List Char := "enum E { A }\nE.x;".toList

def exampleEnumFirstTree : Node :=
  .sourceFile 0 17
    [.enumDeclaration 0 12 (some "E"),
     .expressionStatement 13 17 none
       [.propertyAccessExpression 13 16 (some "E")
         [.identifier 13 14 "E", .identifier 15 16 "x"]]]

/-- `"E.x;\nenum E { A }"`: the identical member access `E.x` occurs
before the enum declaration in the walk. -/
def exampleAccessFirstText : List Char := "E.x;\nenum E { A }".toList

def exampleAccessFirstTree : Node :=
  .sourceFile 0 17
    [.expressionStatement 0 4 none
       [.propertyAccessExpression 0 3 (some "E")
         [.identifier 0 1 "E", .identifier 2 3 "x"]],
     .enumDeclaration 5 17 (some "E")]

/-- `"new Map<string, Set<number>>()"`: the document of the nested
type-argument scenario.  The first type argument `string` starts at
offset 8, so the backward scan starts at offset 7. -/
def exampleNestedText : List Char := "new Map<string, Set<number>>()".toList

/-- `"enum E { /* c */ A }"`: an enum declaration (emitted whole-span as
TypeScript, priority 3) containing a block comment at `[9,16)` that the
comment scanner reports as a JavaScript (priority 1) candidate. -/
def exampleEnumCommentText : List Char := "enum E { /* c */ A }".toList

def exampleEnumCommentTree : Node :=
  .sourceFile 0 20 [.enumDeclaration 0 20 (some "E")]

/-! ## Overlap-resolver lemmas -/

theorem maxCoverPriority_cons (a : RawRegion) (rs : List RawRegion) (p : Nat) :
    maxCoverPriority (a :: rs) p =
      if coversB a p then max a.priority (maxCoverPriority rs p)
      else maxCoverPriority rs p := by
  by_cases h : coversB a p <;> simp [maxCoverPriority, List.filter_cons, h]

theorem cover_le_maxCoverPriority (p : Nat) :
    ∀ rs : List RawRegion, ∀ r ∈ rs, coversB r p = true →
      r.priority ≤ maxCoverPriority rs p := by
  intro rs
  induction rs with
  | nil => simp
  | cons a rs ih =>
      intro r hr hcov
      rw [maxCoverPriority_cons]
      rcases List.mem_cons.mp hr with rfl | hr
      · simp [hcov]
      · have := ih r hr hcov
        by_cases ha : coversB a p <;> simp [ha] <;> omega

theorem foldl_stepAt_frozen (p : Nat) :
    ∀ (rs : List RawRegion) (o : Option SyntaxLayer) (q : Nat),
      (∀ r ∈ rs, coversB r p = true → r.priority ≤ q) →
      rs.foldl (stepAt p) (o, q) = (o, q) := by
  intro rs
  induction rs with
  | nil => intro o q _; rfl
  | cons a rs ih =>
      intro o q h
      have hstep : stepAt p (o, q) a = (o, q) := by
        unfold stepAt
        by_cases ha : coversB a p
        · have : a.priority ≤ q := h a (by simp) ha
          simp [ha]
          omega
        · simp [ha]
      simp only [List.foldl_cons, hstep]
      exact ih o q fun r hr => h r (by simp [hr])

theorem foldl_stepAt_firstmax (p : Nat) :
    ∀ (rs : List RawRegion) (o : Option SyntaxLayer) (q : Nat),
      q < maxCoverPriority rs p →
      ∃ r, (rs.find? fun r => coversB r p && r.priority == maxCoverPriority rs p) = some r ∧
        rs.foldl (stepAt p) (o, q) = (some r.layer, r.priority) ∧
        r.priority = maxCoverPriority rs p := by
  intro rs
  induction rs with
  | nil => intro o q hq; simp [maxCoverPriority] at hq
  | cons a rs ih =>
      intro o q hq
      by_cases ha : coversB a p
      · rw [maxCoverPriority_cons, if_pos ha] at hq ⊢
        by_cases hlt : q < a.priority
        · have hstep : stepAt p (o, q) a = (some a.layer, a.priority) := by
            unfold stepAt; simp [ha, hlt]
          by_cases hm : maxCoverPriority rs p ≤ a.priority
          · have hmax : max a.priority (maxCoverPriority rs p) = a.priority :=
              Nat.max_eq_left hm
            rw [hmax]
            refine ⟨a, ?_, ?_, rfl⟩
            · rw [List.find?_cons_of_pos _ (by simp [ha])]
            · simp only [List.foldl_cons, hstep]
              exact foldl_stepAt_frozen p rs (some a.layer) a.priority
                fun r hr hc => le_trans (cover_le_maxCoverPriority p rs r hr hc) hm
          · have hm2 : a.priority < maxCoverPriority rs p := by omega
            have hmax : max a.priority (maxCoverPriority rs p) = maxCoverPriority rs p :=
              Nat.max_eq_right (le_of_lt hm2)
            rw [hmax]
            obtain ⟨r, hfind, hfold, hpr⟩ := ih (some a.layer) a.priority hm2
            refine ⟨r, ?_, ?_, hpr⟩
            · rw [List.find?_cons_of_neg _ (by simp [ha]; omega)]
              exact hfind
            · simp only [List.foldl_cons, hstep]; exact hfold
        · have hstep : stepAt p (o, q) a = (o, q) := by
            unfold stepAt; simp [ha]; omega
          have hqr : q < maxCoverPriority rs p := by
            rcases lt_max_iff.mp hq with h | h
            · omega
            · exact h
          have hmax : max a.priority (maxCoverPriority rs p) = maxCoverPriority rs p :=
            Nat.max_eq_right (by omega)
          rw [hmax]
          obtain ⟨r, hfind, hfold, hpr⟩ := ih o q hqr
          refine ⟨r, ?_, ?_, hpr⟩
          · rw [List.find?_cons_of_neg _ (by simp [ha]; omega)]
            exact hfind
          · simp only [List.foldl_cons, hstep]; exact hfold
      · rw [maxCoverPriority_cons, if_neg ha] at hq ⊢
        have hstep : stepAt p (o, q) a = (o, q) := by
          unfold stepAt; simp [ha]
        obtain ⟨r, hfind, hfold, hpr⟩ := ih o q hq
        refine ⟨r, ?_, ?_, hpr⟩
        · rw [List.find?_cons_of_neg _ (by simp [ha])]
          exact hfind
        · simp only [List.foldl_cons, hstep]; exact hfold

theorem positionMap_eq_firstMax (rs : List RawRegion) (p : Nat)
    (r0 : RawRegion) (hr0 : r0 ∈ rs) (hcov : coversB r0 p = true)
    (hpos : 0 < r0.priority) :
    ∃ r, firstMaxCover rs p = some r ∧ r ∈ rs ∧ coversB r p = true ∧
      r.priority = maxCoverPriority rs p ∧
      positionMap rs p = (some r.layer, r.priority) := by
  have hM : 0 < maxCoverPriority rs p :=
    lt_of_lt_of_le hpos (cover_le_maxCoverPriority p rs r0 hr0 hcov)
  obtain ⟨r, hfind, hfold, hpr⟩ := foldl_stepAt_firstmax p rs none 0 hM
  have hmem : r ∈ rs := List.mem_of_find?_eq_some hfind
  have hprop := List.find?_some hfind
  simp only [Bool.and_eq_true, beq_iff_eq] at hprop
  exact ⟨r, hfind, hmem, hprop.1, hpr, hfold⟩

theorem mergeLoop_invariant (f : Nat → Option SyntaxLayer) (len : Nat) :
    ∀ (n i : Nat) (cur : Option SyntaxLayer) (curStart : Nat)
      (acc : List ClassifiedRegion),
      i + n = len →
      (∀ r ∈ acc, r.start < r.end_) →
      List.Chain' AdjOk acc →
      (∀ l, cur = some l → curStart < i ∧
        ∀ last, acc.getLast? = some last →
          last.end_ ≤ curStart ∧ (last.end_ = curStart → last.layer ≠ l)) →
      (cur = none → ∀ last, acc.getLast? = some last → last.end_ < i) →
      (∀ r ∈ mergeLoop f len cur curStart acc (List.range' i n), r.start < r.end_) ∧
        List.Chain' AdjOk (mergeLoop f len cur curStart acc (List.range' i n)) := by
  intro n
  induction n with
  | zero =>
      intro i cur curStart acc hlen hwf hchain hsome hnone
      have hi : i = len := by omega
      subst hi
      rw [show List.range' i 0 = [] from rfl]
      cases cur with
      | none => simpa [mergeLoop, closeRun] using ⟨hwf, hchain⟩
      | some l =>
          obtain ⟨hlt, hlast⟩ := hsome l rfl
          simp only [mergeLoop, closeRun]
          constructor
          · intro r hr
            rcases List.mem_append.mp hr with hr | hr
            · exact hwf r hr
            · simp only [List.mem_singleton] at hr
              subst hr
              exact hlt
          · rw [List.chain'_append]
            refine ⟨hchain, List.chain'_singleton _, ?_⟩
            intro x hx y hy
            simp only [List.head?_cons, Option.mem_def, Option.some.injEq] at hy
            subst hy
            obtain ⟨h1, h2⟩ := hlast x hx
            exact ⟨h1, fun he => h2 he⟩
  | succ n ih =>
      intro i cur curStart acc hlen hwf hchain hsome hnone
      rw [show List.range' i (n + 1) = i :: List.range' (i + 1) n from rfl]
      simp only [mergeLoop]
      by_cases heq : f i = cur
      · rw [if_pos heq]
        refine ih (i + 1) cur curStart acc (by omega) hwf hchain ?_ ?_
        · intro l hl
          obtain ⟨h1, h2⟩ := hsome l hl
          exact ⟨by omega, h2⟩
        · intro h last hl
          have := hnone h last hl
          omega
      · rw [if_neg heq]
        refine ih (i + 1) (f i) i (closeRun cur curStart i acc) (by omega) ?_ ?_ ?_ ?_
        · intro r hr
          cases cur with
          | none => exact hwf r hr
          | some l =>
              simp only [closeRun] at hr
              rcases List.mem_append.mp hr with hr | hr
              · exact hwf r hr
              · simp only [List.mem_singleton] at hr
                subst hr
                exact (hsome l rfl).1
        · cases cur with
          | none => exact hchain
          | some l =>
              simp only [closeRun]
              rw [List.chain'_append]
              refine ⟨hchain, List.chain'_singleton _, ?_⟩
              intro x hx y hy
              simp only [List.head?_cons, Option.mem_def, Option.some.injEq] at hy
              subst hy
              obtain ⟨h1, h2⟩ := (hsome l rfl).2 x hx
              exact ⟨h1, fun he => h2 he⟩
        · intro l' hl'
          refine ⟨by omega, ?_⟩
          intro last hl
          cases cur with
          | none =>
              simp only [closeRun] at hl
              have := hnone rfl last hl
              exact ⟨by omega, fun he => absurd he (by omega)⟩
          | some l =>
              simp only [closeRun, List.getLast?_concat, Option.some.injEq] at hl
              subst hl
              refine ⟨le_refl _, fun _ hll => ?_⟩
              have hle : l = l' := hll
              apply heq
              rw [hl', ← hle]
        · intro h last hl
          cases cur with
          | none => exact absurd (h ▸ heq) (by simp)
          | some l =>
              simp only [closeRun, List.getLast?_concat, Option.some.injEq] at hl
              subst hl
              exact Nat.lt_succ_self i

theorem resolveOverlaps_chain (rs : List RawRegion) (len : Nat) :
    (∀ r ∈ resolveOverlaps rs len, r.start < r.end_) ∧
      List.Chain' AdjOk (resolveOverlaps rs len) := by
  unfold resolveOverlaps
  split
  · simp
  · rw [List.range_eq_range']
    exact mergeLoop_invariant (fun p => (positionMap rs p).1) len len 0 none 0 []
      (by omega) (by simp) (by simp) (by simp) (by simp)

theorem collectComments_emits_javascript (ranges : List (Nat × Nat)) :
    ∀ st : CollectorState,
      ∃ ext, (collectComments ranges st).rawRegions = st.rawRegions ++ ext ∧
        (collectComments ranges st).enumNames = st.enumNames ∧
        ∀ r ∈ ext, r.layer = .javascript ∧ r.priority = 1 := by
  induction ranges with
  | nil => intro st; exact ⟨[], by simp [collectComments], rfl, by simp⟩
  | cons a rest ih =>
      intro st
      have hstep : collectComments (a :: rest) st =
          collectComments rest (addRegion a.1 a.2 .javascript st) := rfl
      obtain ⟨ext, he, hn, hall⟩ := ih (addRegion a.1 a.2 .javascript st)
      by_cases hab : a.1 < a.2
      · refine ⟨⟨a.1, a.2, .javascript, 1⟩ :: ext, ?_, ?_, ?_⟩
        · rw [hstep, he]
          simp [addRegion, hab, PRIORITY]
        · rw [hstep, hn]; simp [addRegion, hab]
        · intro r hr
          rcases List.mem_cons.mp hr with rfl | hr
          · exact ⟨rfl, rfl⟩
          · exact hall r hr
      · refine ⟨ext, ?_, ?_, hall⟩
        · rw [hstep, he]; simp [addRegion, hab]
        · rw [hstep, hn]; simp [addRegion, hab]

/-! ## Claim theorems -/

/-- **C1**: for every candidate-region list (with the positive priorities
`addRegion` always attaches) and every offset, the resolver's sweep cell
records the layer of a covering candidate of maximal priority; a
candidate overwrites the cell only when its priority is strictly greater
than the recorded one, so among equal-priority covering candidates the
first-emitted one's layer is kept — the cell equals the layer and
priority of the *first* candidate (in emission order) whose priority is
the maximum over the covering candidates. -/
theorem c1_resolver_priority_dominance (rs : List RawRegion) (p : Nat)
    (hpos : ∀ r ∈ rs, 0 < r.priority)
    (r0 : RawRegion) (hr0 : r0 ∈ rs) (hcov : coversB r0 p = true) :
    ∃ r, firstMaxCover rs p = some r ∧ r ∈ rs ∧ coversB r p = true ∧
      r.priority = maxCoverPriority rs p ∧
      positionMap rs p = (some r.layer, r.priority) :=
  positionMap_eq_firstMax rs p r0 hr0 hcov (hpos r0 hr0)

/-- Witness for C1 at a concrete tie: of the three candidates covering
offset 2, the maximal priority 3 is shared by the second and third, and
the recorded cell keeps the earlier-emitted second one. -/
theorem c1_resolver_priority_dominance_witness :
    positionMap
        [⟨0, 3, .jsx, 2⟩, ⟨1, 4, .typescript, 3⟩, ⟨2, 5, .react, 3⟩] 2 =
      (some SyntaxLayer.typescript, 3) := by
  obtain ⟨r, hfind, -, -, -, hpm⟩ :=
    c1_resolver_priority_dominance
      [⟨0, 3, .jsx, 2⟩, ⟨1, 4, .typescript, 3⟩, ⟨2, 5, .react, 3⟩] 2
      (by decide) ⟨0, 3, .jsx, 2⟩ (by decide) (by decide)
  have hc : firstMaxCover
      [⟨0, 3, .jsx, 2⟩, ⟨1, 4, .typescript, 3⟩, ⟨2, 5, .react, 3⟩] 2 =
      some ⟨1, 4, .typescript, 3⟩ := by decide
  rw [hc, Option.some.injEq] at hfind
  rw [hpm, ← hfind]

/-- **C2**: for every input (tree, comment ranges, text), the output of
`classifyDocument` is ordered by start and mutually non-overlapping:
every region has `start < end`, and each region ends no later than the
next one starts. -/
theorem c2_output_sorted_nonoverlapping (tree : Node)
    (commentRanges : List (Nat × Nat)) (text : List Char) :
    (∀ r ∈ classifyDocument tree commentRanges text, r.start < r.end_) ∧
      List.Chain' (fun a b => a.end_ ≤ b.start)
        (classifyDocument tree commentRanges text) := by
  have h := resolveOverlaps_chain
    (collectComments commentRanges (visit text tree ⟨[], []⟩)).rawRegions text.length
  exact ⟨h.1, List.Chain'.imp (fun a b hab => hab.1) h.2⟩

/-- **C3 (counterexample)**: on the document `"x; y"` — two expression
statements separated by whitespace — `classifyDocument` returns two
consecutive regions that both carry the JavaScript layer, refuting
`regions[i].layer ≠ regions[i+1].layer` for all i: the merge pass only
merges runs of identical layer that are contiguous, so a gap (the
uncovered `"; "`) separates two same-layer regions. -/
theorem c3_counterexample_same_layer_neighbors :
    classifyDocument exampleGapTree [] exampleGapText =
        [⟨0, 1, .javascript⟩, ⟨3, 4, .javascript⟩] ∧
      ¬ List.Chain' (fun a b => a.layer ≠ b.layer)
          (classifyDocument exampleGapTree [] exampleGapText) := by
  refine ⟨by decide, ?_⟩
  intro h
  rw [show classifyDocument exampleGapTree [] exampleGapText =
      [⟨0, 1, .javascript⟩, ⟨3, 4, .javascript⟩] from by decide] at h
  exact (List.chain'_pair.mp h) rfl

/-- **C3 (amended)**: consecutive output regions that touch (the first
ends exactly where the second starts) always carry different layers;
same-layer repetition can occur only across a gap of unclassified
offsets. -/
theorem c3_touching_neighbors_differ (tree : Node)
    (commentRanges : List (Nat × Nat)) (text : List Char) :
    List.Chain' (fun a b => a.end_ = b.start → a.layer ≠ b.layer)
      (classifyDocument tree commentRanges text) := by
  have h := resolveOverlaps_chain
    (collectComments commentRanges (visit text tree ⟨[], []⟩)).rawRegions text.length
  exact List.Chain'.imp (fun a b hab => hab.2) h.2

/-- **C10**: the comment scanner emits every comment range as a
JavaScript (priority-1) candidate, yet at any offset also covered by a
candidate of priority above 1 the resolver records the layer of such a
higher-priority candidate, never the comment's base layer; concretely,
the comment inside `"enum E { /* c */ A }"` (whose whole span is a
priority-3 TypeScript candidate) comes out TypeScript. -/
theorem c10_comment_inside_higher_priority_span
    (ranges : List (Nat × Nat)) (st : CollectorState)
    (rs : List RawRegion) (p : Nat) (r : RawRegion)
    (hr : r ∈ rs) (hcov : coversB r p = true) (hpr : 1 < r.priority) :
    (∃ ext, (collectComments ranges st).rawRegions = st.rawRegions ++ ext ∧
        ∀ c ∈ ext, c.layer = .javascript ∧ c.priority = 1) ∧
      (∃ w, w ∈ rs ∧ coversB w p = true ∧ 1 < w.priority ∧
        (positionMap rs p).1 = some w.layer) ∧
      classifyDocument exampleEnumCommentTree [(9, 16)] exampleEnumCommentText =
        [⟨0, 20, .typescript⟩] := by
  refine ⟨?_, ?_, by decide⟩
  · obtain ⟨ext, he, -, hall⟩ := collectComments_emits_javascript ranges st
    exact ⟨ext, he, hall⟩
  · obtain ⟨w, -, hw, hcw, hpw, hpm⟩ :=
      positionMap_eq_firstMax rs p r hr hcov (by omega)
    refine ⟨w, hw, hcw, ?_, by rw [hpm]⟩
    have := cover_le_maxCoverPriority p rs r hr hcov
    omega

/-- Witness for C10: on the candidate list of the enum-with-comment
document, the resolver cell at offset 10 (inside the comment) is
TypeScript, not the comment's JavaScript. -/
theorem c10_comment_inside_higher_priority_span_witness :
    (positionMap [⟨0, 20, .typescript, 3⟩, ⟨9, 16, .javascript, 1⟩] 10).1 =
      some SyntaxLayer.typescript := by
  obtain ⟨-, ⟨w, hw, -, hpw, hpm⟩, -⟩ :=
    c10_comment_inside_higher_priority_span [(9, 16)] ⟨[], []⟩
      [⟨0, 20, .typescript, 3⟩, ⟨9, 16, .javascript, 1⟩] 10
      ⟨0, 20, .typescript, 3⟩ (by decide) (by decide) (by decide)
  rw [hpm]
  rcases List.mem_cons.mp hw with rfl | hw2
  · rfl
  · rcases List.mem_cons.mp hw2 with rfl | hw3
    · exact absurd hpw (by decide)
    · simp at hw3

/-! ## Bracket-matcher lemmas -/

theorem fobGo_spec (s : List Char) :
    ∀ p : Nat,
      (fobGo s p = -1 ∧ ∀ j, j ≤ p → s[j]? ≠ some '<') ∨
      (∃ q : Nat, fobGo s p = (q : Int) ∧ q ≤ p ∧ s[q]? = some '<' ∧
        ∀ j, q < j → j ≤ p → s[j]? ≠ some '<') := by
  intro p
  induction p with
  | zero =>
      by_cases h : s[0]? = some '<'
      · right
        refine ⟨0, by simp [fobGo, h], le_refl 0, h, ?_⟩
        intro j hj1 hj2
        omega
      · left
        refine ⟨by simp [fobGo, h], ?_⟩
        intro j hj
        have : j = 0 := by omega
        subst this
        exact h
  | succ p ih =>
      by_cases h : s[p + 1]? = some '<'
      · right
        refine ⟨p + 1, by simp [fobGo, h], le_refl _, h, ?_⟩
        intro j hj1 hj2
        omega
      · have hstep : fobGo s (p + 1) = fobGo s p := by simp [fobGo, h]
        rcases ih with ⟨hres, hall⟩ | ⟨q, hres, hle, hq, hall⟩
        · left
          refine ⟨hstep ▸ hres, ?_⟩
          intro j hj
          rcases Nat.lt_or_ge j (p + 1) with hj2 | hj2
          · exact hall j (by omega)
          · have : j = p + 1 := by omega
            subst this
            exact h
        · right
          refine ⟨q, hstep ▸ hres, by omega, hq, ?_⟩
          intro j hj1 hj2
          rcases Nat.lt_or_ge j (p + 1) with hj3 | hj3
          · exact hall j hj1 (by omega)
          · have : j = p + 1 := by omega
            subst this
            exact h

theorem fmcbGo_depth_zero (t : List Char) (q : Nat) : fmcbGo t 0 q = (q : Int) - 1 := by
  cases t <;> simp [fmcbGo]

theorem fmcbGo_spec :
    ∀ (tail : List Char) (depth pos : Nat), 0 < depth →
      (fmcbGo tail depth pos = -1 ∧
        ∀ k, k < tail.length →
          (depth : Int) + (((tail.take (k + 1)).map bracketDelta).sum) ≠ 0) ∨
      (∃ k, k < tail.length ∧ fmcbGo tail depth pos = ((pos + k : Nat) : Int) ∧
        tail[k]? = some '>' ∧
        (depth : Int) + (((tail.take (k + 1)).map bracketDelta).sum) = 0 ∧
        ∀ j, j < k →
          (depth : Int) + (((tail.take (j + 1)).map bracketDelta).sum) ≠ 0) := by
  intro tail
  induction tail with
  | nil =>
      intro depth pos hd
      left
      constructor
      · have : ¬ depth = 0 := by omega
        simp [fmcbGo, this]
      · intro k hk
        simp at hk
  | cons c rest ih =>
      intro depth pos hd
      have hne : ¬ depth = 0 := by omega
      have hstep : fmcbGo (c :: rest) depth pos =
          fmcbGo rest (if c = '<' then depth + 1 else if c = '>' then depth - 1 else depth)
            (pos + 1) := by
        simp [fmcbGo, hne]
      set depth' := if c = '<' then depth + 1 else if c = '>' then depth - 1 else depth
        with hdep
      have hdelta : (depth' : Int) = (depth : Int) + bracketDelta c := by
        by_cases h1 : c = '<'
        · simp [hdep, bracketDelta, h1]
        · by_cases h2 : c = '>'
          · simp [hdep, bracketDelta, h1, h2]
            omega
          · simp [hdep, bracketDelta, h1, h2]
      have htake1 : (depth : Int) + (((c :: rest).take 1).map bracketDelta).sum =
          (depth' : Int) := by
        simp [hdelta]
      by_cases hz : depth' = 0
      · right
        have hc : c = '>' := by
          by_cases h1 : c = '<'
          · simp [hdep, h1] at hz
          · by_cases h2 : c = '>'
            · exact h2
            · simp [hdep, h1, h2] at hz
              omega
        refine ⟨0, by simp, ?_, by simp [hc], ?_, ?_⟩
        · rw [hstep, hz, fmcbGo_depth_zero]
          push_cast
          omega
        · rw [show (0 : Nat) + 1 = 1 from rfl, htake1, hz]
          simp
        · intro j hj
          exact absurd hj (Nat.not_lt_zero j)
      · have hd' : 0 < depth' := Nat.pos_of_ne_zero hz
        rcases ih depth' (pos + 1) hd' with ⟨hres, hmin⟩ | ⟨k, hk, hres, hch, hzero, hmin⟩
        · left
          refine ⟨by rw [hstep]; exact hres, ?_⟩
          intro k hk
          cases k with
          | zero =>
              rw [show (0 : Nat) + 1 = 1 from rfl, htake1]
              exact_mod_cast hz
          | succ j =>
              have hjr : j < rest.length := by simpa using hk
              have hsum : (((c :: rest).take (j + 1 + 1)).map bracketDelta).sum =
                  bracketDelta c + ((rest.take (j + 1)).map bracketDelta).sum := by
                simp [List.take_succ_cons]
              have hrest := hmin j hjr
              rw [hsum]
              intro h0
              apply hrest
              rw [hdelta]
              omega
        · right
          refine ⟨k + 1, by simpa using hk, ?_, by simpa using hch, ?_, ?_⟩
          · rw [hstep, hres]
            push_cast
            omega
          · have hsum : (((c :: rest).take (k + 1 + 1)).map bracketDelta).sum =
                bracketDelta c + ((rest.take (k + 1)).map bracketDelta).sum := by
              simp [List.take_succ_cons]
            rw [hsum]
            rw [hdelta] at hzero
            omega
          · intro j hj
            cases j with
            | zero =>
                rw [show (0 : Nat) + 1 = 1 from rfl, htake1]
                exact_mod_cast hz
            | succ j =>
                have hjk : j < k := by omega
                have hrest := hmin j hjk
                have hsum : (((c :: rest).take (j + 1 + 1)).map bracketDelta).sum =
                    bracketDelta c + ((rest.take (j + 1)).map bracketDelta).sum := by
                  simp [List.take_succ_cons]
                rw [hsum]
                intro h0
                apply hrest
                rw [hdelta]
                omega

theorem findMatchingCloseBracket_spec (s : List Char) (openPos : Nat) :
    (findMatchingCloseBracket s openPos = -1 ∧
      ∀ j, openPos < j → j < s.length → depthBefore s openPos (j + 1) ≠ 0) ∨
    (∃ q : Nat, findMatchingCloseBracket s openPos = (q : Int) ∧
      openPos < q ∧ q < s.length ∧ s[q]? = some '>' ∧
      depthBefore s openPos (q + 1) = 0 ∧
      ∀ j, openPos < j → j < q → depthBefore s openPos (j + 1) ≠ 0) := by
  have hlen : (s.drop (openPos + 1)).length = s.length - (openPos + 1) := by
    simp
  rcases fmcbGo_spec (s.drop (openPos + 1)) 1 (openPos + 1) (by omega) with
    ⟨hres, hmin⟩ | ⟨k, hk, hres, hch, hzero, hmin⟩
  · left
    refine ⟨hres, ?_⟩
    intro j hj1 hj2
    have hkj : j - (openPos + 1) < (s.drop (openPos + 1)).length := by omega
    have := hmin (j - (openPos + 1)) hkj
    unfold depthBefore
    have harith : j + 1 - (openPos + 1) = j - (openPos + 1) + 1 := by omega
    rw [harith]
    simpa using this
  · right
    refine ⟨openPos + 1 + k, hres, by omega, by omega, ?_, ?_, ?_⟩
    · rw [← hch, List.getElem?_drop]
    · unfold depthBefore
      have harith : openPos + 1 + k + 1 - (openPos + 1) = k + 1 := by omega
      rw [harith]
      simpa using hzero
    · intro j hj1 hj2
      have hjk : j - (openPos + 1) < k := by omega
      have := hmin (j - (openPos + 1)) hjk
      unfold depthBefore
      have harith : j + 1 - (openPos + 1) = j - (openPos + 1) + 1 := by omega
      rw [harith]
      simpa using this

/-- **C4**: both bracket matchers are pure functions of the source text.
The backward scan from offset `p` returns the position of the nearest
`'<'` at or before `p` (nothing strictly closer carries `'<'`), or `-1`
when no `'<'` exists down to position 0.  The forward scan from an
opening `'<'` maintains a depth counter (`+1` on `'<'`, `-1` on `'>'`,
formalized by `depthBefore`) and returns the first offset where the
depth reaches 0 — an offset holding `'>'` — or `-1` when end-of-text is
reached first.  On `"new Map<string, Set<number>>()"` the scans locate
the single span `[7, 28)`, which is exactly `"<string, Set<number>>"`. -/
theorem c4_bracket_matcher (s s2 : List Char) (p openPos : Nat) :
    ((findOpeningBracket s (p : Int) = -1 ∧ ∀ j, j ≤ p → s[j]? ≠ some '<') ∨
      (∃ q : Nat, findOpeningBracket s (p : Int) = (q : Int) ∧ q ≤ p ∧
        s[q]? = some '<' ∧ ∀ j, q < j → j ≤ p → s[j]? ≠ some '<')) ∧
    ((findMatchingCloseBracket s2 openPos = -1 ∧
        ∀ j, openPos < j → j < s2.length → depthBefore s2 openPos (j + 1) ≠ 0) ∨
      (∃ q : Nat, findMatchingCloseBracket s2 openPos = (q : Int) ∧
        openPos < q ∧ q < s2.length ∧ s2[q]? = some '>' ∧
        depthBefore s2 openPos (q + 1) = 0 ∧
        ∀ j, openPos < j → j < q → depthBefore s2 openPos (j + 1) ≠ 0)) ∧
    (findOpeningBracket exampleNestedText 7 = 7 ∧
      findMatchingCloseBracket exampleNestedText 7 = 27 ∧
      (exampleNestedText.take 28).drop 7 = "<string, Set<number>>".toList) := by
  refine ⟨?_, findMatchingCloseBracket_spec s2 openPos, by decide, by decide, by decide⟩
  have hfob : findOpeningBracket s (p : Int) = fobGo s p := by
    simp [findOpeningBracket]
  rw [hfob]
  exact fobGo_spec s p

/-! ## Collector state lemmas -/

@[simp] theorem addRegion_enumNames (s e : Nat) (l : SyntaxLayer) (st : CollectorState) :
    (addRegion s e l st).enumNames = st.enumNames := by
  unfold addRegion
  split <;> rfl

@[simp] theorem keyPropStep_enumNames (st : CollectorState) (p : Node) :
    (keyPropStep st p).enumNames = st.enumNames := by
  unfold keyPropStep
  split <;> simp

@[simp] theorem createElementFirstArg_enumNames (args : List Node) (st : CollectorState) :
    (createElementFirstArg args st).enumNames = st.enumNames := by
  unfold createElementFirstArg
  split
  · rfl
  · split
    · split <;> simp
    · simp
    · rfl

theorem keyPropFold_enumNames (props : List Node) :
    ∀ st : CollectorState, (props.foldl keyPropStep st).enumNames = st.enumNames := by
  induction props with
  | nil => intro st; rfl
  | cons p rest ih =>
      intro st
      rw [List.foldl_cons, ih, keyPropStep_enumNames]

@[simp] theorem createElementKeyProps_enumNames (args : List Node) (st : CollectorState) :
    (createElementKeyProps args st).enumNames = st.enumNames := by
  unfold createElementKeyProps
  split
  · exact keyPropFold_enumNames _ st
  · rfl

theorem visitList_append (text : List Char) (a b : List Node) :
    ∀ st, visitList text (a ++ b) st = visitList text b (visitList text a st) := by
  induction a with
  | nil => intro st; rfl
  | cons n rest ih =>
      intro st
      simp only [List.cons_append]
      rw [show visitList text (n :: (rest ++ b)) st =
        visitList text (rest ++ b) (visit text n st) from rfl]
      rw [ih]
      rfl

/-- The type-argument handling of the call-expression branch is a pure
state transformation before the branch dispatch: a call with a
type-argument list behaves like the same call without one, started from
the state that may carry the one extra TypeScript candidate. -/
theorem visit_call_typeArgs (text : List Char) (s e : Nat) (c : String)
    (cs ce : Nat) (ftv : Nat) (args children : List Node) (st : CollectorState) :
    visit text (.callExpression s e c cs ce (some ftv) args children) st =
      visit text (.callExpression s e c cs ce none args children)
        (if findOpeningBracket text ((ftv : Int) - 1) ≠ -1 then
          if findMatchingCloseBracket text
              (findOpeningBracket text ((ftv : Int) - 1)).toNat ≠ -1 then
            addRegion (findOpeningBracket text ((ftv : Int) - 1)).toNat
              ((findMatchingCloseBracket text
                  (findOpeningBracket text ((ftv : Int) - 1)).toNat).toNat + 1)
              .typescript st
          else st
        else st) := rfl

/-- Every call-expression visit descends into the children from a state
whose tracked-name set is unchanged. -/
theorem visit_call_shape (text : List Char) (s e : Nat) (c : String)
    (cs ce : Nat) (ft : Option Nat) (args children : List Node)
    (st : CollectorState) :
    ∃ st2 : CollectorState, st2.enumNames = st.enumNames ∧
      visit text (.callExpression s e c cs ce ft args children) st =
        visitList text children st2 := by
  have base : ∀ st1 : CollectorState,
      ∃ st2 : CollectorState, st2.enumNames = st1.enumNames ∧
        visit text (.callExpression s e c cs ce none args children) st1 =
          visitList text children st2 := by
    intro st1
    by_cases h1 : c ∈ REACT_HOOKS
    · exact ⟨addRegion s e .javascript (addRegion cs ce .react st1), by simp,
        by simp [visit, h1]⟩
    · by_cases h2 : isQualifiedReactHook c = true
      · exact ⟨addRegion s e .javascript (addRegion cs ce .react st1), by simp,
          by simp [visit, h1, h2]⟩
      · by_cases h3 : c ∈ REACT_UTILS
        · exact ⟨addRegion s e .javascript (addRegion cs ce .react st1), by simp,
            by simp [visit, h1, h2, h3]⟩
        · by_cases h4 : c = "React.createElement" ∨ c = "createElement"
          · exact ⟨createElementKeyProps args
                (createElementFirstArg args (addRegion cs ce .react st1)),
              by simp, by simp [visit, h1, h2, h3, h4]⟩
          · by_cases h5 : c.startsWith "React." = true
            · exact ⟨addRegion s e .javascript (addRegion cs ce .react st1), by simp,
                by simp [visit, h1, h2, h3, h4, h5]⟩
            · exact ⟨addRegion s e .javascript st1, by simp,
                by simp [visit, h1, h2, h3, h4, h5]⟩
  cases ft with
  | none => exact base st
  | some ftv =>
      rw [visit_call_typeArgs]
      obtain ⟨st2, h2, heq⟩ := base _
      refine ⟨st2, ?_, heq⟩
      rw [h2]
      split
      · split <;> simp
      · rfl

/-- Joint characterization of the tracked-name set: a walk only appends
names to `enumNames`, and every appended name is the name of some enum
declaration in the visited subtree. -/
theorem enumNames_aux (text : List Char) :
    ∀ fuel : Nat,
      (∀ (n : Node) (st : CollectorState), sizeOf n ≤ fuel →
        ∃ ext, (visit text n st).enumNames = st.enumNames ++ ext ∧
          ∀ x ∈ ext, x ∈ enumNamesIn n) ∧
      (∀ (l : List Node) (st : CollectorState), sizeOf l ≤ fuel →
        ∃ ext, (visitList text l st).enumNames = st.enumNames ++ ext ∧
          ∀ x ∈ ext, x ∈ enumNamesInList l) := by
  intro fuel
  induction fuel with
  | zero =>
      constructor
      · intro n st hsz
        exfalso
        cases n <;> simp at hsz
      · intro l st hsz
        exfalso
        cases l <;> simp at hsz
  | succ fuel ih =>
      obtain ⟨ihn, ihl⟩ := ih
      constructor
      · intro n st hsz
        cases n with
        | sourceFile s e stmts =>
            obtain ⟨ext, he, hsub⟩ := ihl stmts st (by simp at hsz; omega)
            exact ⟨ext, he, fun x hx => by simpa [enumNamesIn] using hsub x hx⟩
        | expressionStatement s e lit children =>
            cases lit with
            | some t =>
                refine ⟨[], ?_, by simp⟩
                by_cases hd : t ∈ REACT_DIRECTIVES <;> simp [visit, hd]
            | none =>
                obtain ⟨ext, he, hsub⟩ := ihl children st (by simp at hsz; omega)
                exact ⟨ext, he, fun x hx => by simpa [enumNamesIn] using hsub x hx⟩
        | decorator s e => exact ⟨[], by simp [visit], by simp⟩
        | variableStatement s e hd iu dls fds children =>
            have hc : sizeOf children ≤ fuel := by simp at hsz; omega
            cases hd
            · cases iu
              · obtain ⟨ext, he, hsub⟩ :=
                  ihl children (addRegion s e .javascript st) hc
                refine ⟨ext, ?_, fun x hx => by simpa [enumNamesIn] using hsub x hx⟩
                simp [visit, he]
              · cases fds with
                | none =>
                    obtain ⟨ext, he, hsub⟩ :=
                      ihl children (addRegion s e .javascript st) hc
                    refine ⟨ext, ?_, fun x hx => by
                      simpa [enumNamesIn] using hsub x hx⟩
                    simp [visit, he]
                | some fd =>
                    obtain ⟨ext, he, hsub⟩ :=
                      ihl children
                        (addRegion s e .javascript
                          (addRegion dls fd .typescript st)) hc
                    refine ⟨ext, ?_, fun x hx => by
                      simpa [enumNamesIn] using hsub x hx⟩
                    simp [visit, he]
            · exact ⟨[], by simp [visit], by simp⟩
        | variableDeclaration s e tyAnn children =>
            have hc : sizeOf children ≤ fuel := by simp at hsz; omega
            cases tyAnn with
            | none =>
                obtain ⟨ext, he, hsub⟩ :=
                  ihl children (addRegion s e .javascript st) hc
                refine ⟨ext, ?_, fun x hx => by simpa [enumNamesIn] using hsub x hx⟩
                simp [visit, he]
            | some ty =>
                obtain ⟨ext, he, hsub⟩ :=
                  ihl children
                    (addRegion ty.1 ty.2 .typescript
                      (addRegion s e .javascript st)) hc
                refine ⟨ext, ?_, fun x hx => by simpa [enumNamesIn] using hsub x hx⟩
                rcases ty with ⟨colonStart, typeEnd⟩
                simp [visit, he]
        | enumDeclaration s e name =>
            cases name with
            | some nm =>
                by_cases hc : nm ∈ st.enumNames
                · refine ⟨[], ?_, by simp⟩
                  simp [visit, trackEnumName, hc]
                · refine ⟨[nm], ?_, by simp [enumNamesIn]⟩
                  simp [visit, trackEnumName, hc]
            | none => exact ⟨[], by simp [visit], by simp⟩
        | propertyAccessExpression s e base children =>
            have hc : sizeOf children ≤ fuel := by simp at hsz; omega
            cases base with
            | some b =>
                by_cases hb : b ∈ st.enumNames
                · refine ⟨[], ?_, by simp⟩
                  simp [visit, hb]
                · obtain ⟨ext, he, hsub⟩ :=
                    ihl children (addRegion s e .javascript st) hc
                  refine ⟨ext, ?_, fun x hx => by
                    simpa [enumNamesIn] using hsub x hx⟩
                  simp [visit, hb, he]
            | none =>
                obtain ⟨ext, he, hsub⟩ :=
                  ihl children (addRegion s e .javascript st) hc
                refine ⟨ext, ?_, fun x hx => by
                  simpa [enumNamesIn] using hsub x hx⟩
                simp [visit, he]
        | callExpression s e c cs ce ft args children =>
            have hc : sizeOf children ≤ fuel := by simp at hsz; omega
            obtain ⟨st2, h2, heq⟩ := visit_call_shape text s e c cs ce ft args children st
            obtain ⟨ext, he, hsub⟩ := ihl children st2 hc
            refine ⟨ext, ?_, fun x hx => ?_⟩
            · rw [heq, he, h2]
            · simp only [enumNamesIn, List.mem_append]
              exact Or.inr (hsub x hx)
        | objectLiteralExpression s e props =>
            obtain ⟨ext, he, hsub⟩ :=
              ihl props (addRegion s e .javascript st) (by simp at hsz; omega)
            refine ⟨ext, ?_, fun x hx => by simpa [enumNamesIn] using hsub x hx⟩
            simp [visit, he]
        | propertyAssignment s e nm ns ne children =>
            obtain ⟨ext, he, hsub⟩ := ihl children st (by simp at hsz; omega)
            exact ⟨ext, he, fun x hx => by simpa [enumNamesIn] using hsub x hx⟩
        | identifier s e t =>
            refine ⟨[], ?_, by simp⟩
            by_cases ht : t = "React" <;> simp [visit, ht]
        | numericLiteral s e => exact ⟨[], by simp [visit], by simp⟩
        | stringLiteral s e => exact ⟨[], by simp [visit], by simp⟩
        | plainNode s e children =>
            obtain ⟨ext, he, hsub⟩ := ihl children st (by simp at hsz; omega)
            exact ⟨ext, he, fun x hx => by simpa [enumNamesIn] using hsub x hx⟩
      · intro l st hsz
        cases l with
        | nil => exact ⟨[], by simp [visitList], by simp⟩
        | cons n rest =>
            obtain ⟨e1, he1, hs1⟩ := ihn n st (by simp at hsz; omega)
            obtain ⟨e2, he2, hs2⟩ :=
              ihl rest (visit text n st) (by simp at hsz; omega)
            refine ⟨e1 ++ e2, ?_, ?_⟩
            · rw [show visitList text (n :: rest) st =
                visitList text rest (visit text n st) from rfl]
              rw [he2, he1, List.append_assoc]
            · intro x hx
              rcases List.mem_append.mp hx with hx | hx
              · simp only [enumNamesInList, List.mem_append]
                exact Or.inl (hs1 x hx)
              · simp only [enumNamesInList, List.mem_append]
                exact Or.inr (hs2 x hx)

/-- The tracked-name set only grows along a walk. -/
theorem visitList_enumNames_mono (text : List Char) (l : List Node)
    (st : CollectorState) (x : String) (hx : x ∈ st.enumNames) :
    x ∈ (visitList text l st).enumNames := by
  obtain ⟨ext, he, -⟩ := (enumNames_aux text (sizeOf l)).2 l st (le_refl _)
  rw [he]
  exact List.mem_append_left _ hx

/-- A name tracked after a walk was either tracked before it or is the
name of an enum declaration inside the walked statements. -/
theorem visitList_enumNames_bound (text : List Char) (l : List Node)
    (st : CollectorState) (x : String)
    (hx : x ∈ (visitList text l st).enumNames) :
    x ∈ st.enumNames ∨ x ∈ enumNamesInList l := by
  obtain ⟨ext, he, hsub⟩ := (enumNames_aux text (sizeOf l)).2 l st (le_refl _)
  rw [he] at hx
  rcases List.mem_append.mp hx with hx | hx
  · exact Or.inl hx
  · exact Or.inr (hsub x hx)

/-- Visiting an enum declaration records its name (lines 506–509). -/
theorem visit_enum_tracks (text : List Char) (s e : Nat) (nm : String)
    (st : CollectorState) :
    nm ∈ (visit text (.enumDeclaration s e (some nm)) st).enumNames := by
  by_cases hc : nm ∈ st.enumNames <;> simp [visit, trackEnumName, hc]

/-! ## Collector claim theorems -/

/-- **C5**: for every call expression whose callee text is in
`REACT_HOOKS`, matches the qualified `React.useXxx` pattern, or is in
`REACT_UTILS` (and which carries no explicit type-argument list), the
collector emits exactly one React candidate covering the callee name
alone followed by one JavaScript candidate covering the whole call span,
and then descends into the `forEachChild` children — which include the
call's arguments.  Concretely, `"useState(0)"` classifies to `useState`
in the React layer and `(0)` in the JavaScript layer. -/
theorem c5_hook_call_emission (text : List Char) (s e : Nat) (callee : String)
    (cs ce : Nat) (ftv : Nat) (args children : List Node) (st : CollectorState)
    (h : REACT_HOOKS.contains callee = true ∨ isQualifiedReactHook callee = true ∨
      REACT_UTILS.contains callee = true) :
    visit text (.callExpression s e callee cs ce none args children) st =
        visitList text children
          (addRegion s e .javascript (addRegion cs ce .react st)) ∧
      visit text (.callExpression s e callee cs ce (some ftv) args children) st =
        visitList text children
          (addRegion s e .javascript (addRegion cs ce .react
            (if findOpeningBracket text ((ftv : Int) - 1) ≠ -1 then
              if findMatchingCloseBracket text
                  (findOpeningBracket text ((ftv : Int) - 1)).toNat ≠ -1 then
                addRegion (findOpeningBracket text ((ftv : Int) - 1)).toNat
                  ((findMatchingCloseBracket text
                      (findOpeningBracket text ((ftv : Int) - 1)).toNat).toNat + 1)
                  .typescript st
              else st
            else st))) ∧
      classifyDocument exampleHookTree [] exampleHookText =
        [⟨0, 8, .react⟩, ⟨8, 11, .javascript⟩] := by
  have hbase : ∀ stv : CollectorState,
      visit text (.callExpression s e callee cs ce none args children) stv =
        visitList text children
          (addRegion s e .javascript (addRegion cs ce .react stv)) := by
    intro stv
    by_cases h1 : callee ∈ REACT_HOOKS
    · simp [visit, h1]
    · by_cases h2 : isQualifiedReactHook callee = true
      · simp [visit, h1, h2]
      · by_cases h3 : callee ∈ REACT_UTILS
        · simp [visit, h1, h2, h3]
        · exfalso
          rcases h with h | h | h
          · exact h1 (by simpa using h)
          · exact h2 h
          · exact h3 (by simpa using h)
  exact ⟨hbase st, by rw [visit_call_typeArgs]; exact hbase _, by decide⟩

/-- Witness for C5 at the `useState(0)` call node. -/
theorem c5_hook_call_emission_witness :
    visit "useState(0)".toList
        (.callExpression 0 11 "useState" 0 8 none [.numericLiteral 9 10]
          [.identifier 0 8 "useState", .numericLiteral 9 10]) ⟨[], []⟩ =
      visitList "useState(0)".toList
        [.identifier 0 8 "useState", .numericLiteral 9 10]
        (addRegion 0 11 .javascript (addRegion 0 8 .react ⟨[], []⟩)) :=
  (c5_hook_call_emission "useState(0)".toList 0 11 "useState" 0 8 9
    [.numericLiteral 9 10] [.identifier 0 8 "useState", .numericLiteral 9 10]
    ⟨[], []⟩ (Or.inl (by decide))).1

/-- **C6**: the empty document yields the empty output sequence, whatever
the parser returned for it, and a whitespace-only document — whose parse
tree is a `SourceFile` with no statements and only the end-of-file token
as a child, with no comment trivia — also yields the empty output
sequence.  All embedded functions are total, so no error is signalled. -/
theorem c6_empty_and_whitespace_input (tree : Node)
    (commentRanges : List (Nat × Nat)) (ws : List Char)
    (h : ws.all isWsChar = true) :
    classifyDocument tree commentRanges [] = [] ∧
      classifyDocument (wsParseTree ws) [] ws = [] := by
  constructor
  · unfold classifyDocument resolveOverlaps
    simp
  · rfl

/-- Witness for C6 on the whitespace document `"   \n\t  "` (and the
empty document). -/
theorem c6_empty_and_whitespace_input_witness :
    classifyDocument (wsParseTree "   \n\t  ".toList) [] [] = [] ∧
      classifyDocument (wsParseTree "   \n\t  ".toList) [] "   \n\t  ".toList = [] :=
  c6_empty_and_whitespace_input (wsParseTree "   \n\t  ".toList) []
    "   \n\t  ".toList (by decide)

/-- **C7**: when either bracket scan fails — no `'<'` found backward
from the start of the first type argument, or no matching `'>'` found
forward — `findTypeParameterListRange` returns the `none` sentinel, and
the call-expression branch of the walk behaves exactly as if the node
had no type-argument list: the one TypeScript candidate is omitted, the
branch dispatch and the descent into children continue unchanged (all
embedded functions are total, so no exception can cross
`classifyDocument`). -/
theorem c7_bracket_failure_omits_candidate (text : List Char) (ft : Nat)
    (s e : Nat) (callee : String) (cs ce : Nat) (args children : List Node)
    (st : CollectorState)
    (hfail : findOpeningBracket text ((ft : Int) - 1) = -1 ∨
      findMatchingCloseBracket text
        (findOpeningBracket text ((ft : Int) - 1)).toNat = -1) :
    findTypeParameterListRange (some ft) text = none ∧
      visit text (.callExpression s e callee cs ce (some ft) args children) st =
        visit text (.callExpression s e callee cs ce none args children) st := by
  by_cases hob : findOpeningBracket text ((ft : Int) - 1) = -1
  · constructor
    · simp [findTypeParameterListRange, hob]
    · simp [visit, hob]
  · have hcb : findMatchingCloseBracket text
        (findOpeningBracket text ((ft : Int) - 1)).toNat = -1 :=
      hfail.resolve_left hob
    constructor
    · simp [findTypeParameterListRange, hob, hcb]
    · simp [visit, hob, hcb]

/-- Witness for C7: in `"abc"` there is no `'<'` before offset 2, so the
range helper returns `none` and the call branch drops the candidate. -/
theorem c7_bracket_failure_omits_candidate_witness :
    findTypeParameterListRange (some 2) "abc".toList = none ∧
      visit "abc".toList (.callExpression 0 3 "f" 0 1 (some 2) [] []) ⟨[], []⟩ =
        visit "abc".toList (.callExpression 0 3 "f" 0 1 none [] []) ⟨[], []⟩ :=
  c7_bracket_failure_omits_candidate "abc".toList 2 0 3 "f" 0 1 [] [] ⟨[], []⟩
    (Or.inl (by decide))

/-- **C9**: `classifyDocument` is deterministic across a session.  The
embedded collector state (`enumNames`, `rawRegions`) is allocated fresh
inside `classifyDocument` — mirroring lines 221–224 of the source, which
has no module-level mutable state — so in any sequence of calls the
result of classifying a document equals the result of classifying it
alone: here the two invocations of the same input `d`, the second after
runs on arbitrary other inputs, both return `classifyInput d`. -/
theorem c9_session_determinism (pre mid : List DocumentInput) (d : DocumentInput) :
    (runSession (pre ++ d :: (mid ++ [d])))[pre.length]? = some (classifyInput d) ∧
      (runSession (pre ++ d :: (mid ++ [d])))[pre.length + 1 + mid.length]? =
        some (classifyInput d) ∧
      runSession [d] = [classifyInput d] := by
  have key : ∀ (a : List DocumentInput) (x : DocumentInput) (b : List DocumentInput),
      (runSession (a ++ x :: b))[a.length]? = some (classifyInput x) := by
    intro a x b
    unfold runSession
    rw [List.map_append]
    rw [List.getElem?_append_right (by simp)]
    simp
  refine ⟨key pre d (mid ++ [d]), ?_, rfl⟩
  have h2 := key (pre ++ d :: mid) d []
  rw [show pre.length + 1 + mid.length = (pre ++ d :: mid).length from by simp; omega]
  simpa using h2

/-- **C8**: a property access whose base identifier is a tracked enum
name is classified specially (whole-span TypeScript, no descent) exactly
when the enum declaration was encountered earlier in the same forward
pre-order walk.  Part one: with any statements `ss1` before the enum and
`ss2` between enum and access, the access is processed by the special
branch.  Part two: when the access comes first and no enum of that name
occurs among the preceding statements, the access takes the default
JavaScript branch with descent.  The two concrete documents
`"enum E { A }\nE.x;"` and `"E.x;\nenum E { A }"` show the resulting
order dependence end to end. -/
theorem c8_enum_tracking_order_dependence (text : List Char)
    (ss1 ss2 : List Node) (es ee : Nat) (nm : String) (aS aE : Nat)
    (ach : List Node) (st0 : CollectorState)
    (hfresh : nm ∉ st0.enumNames) (hnotin : nm ∉ enumNamesInList ss1) :
    visitList text
        (ss1 ++ .enumDeclaration es ee (some nm) ::
          (ss2 ++ [.propertyAccessExpression aS aE (some nm) ach])) st0 =
      addRegion aS aE .typescript
        (visitList text (ss1 ++ .enumDeclaration es ee (some nm) :: ss2) st0) ∧
    visitList text
        (ss1 ++ .propertyAccessExpression aS aE (some nm) ach :: ss2) st0 =
      visitList text ss2
        (visitList text ach
          (addRegion aS aE .javascript (visitList text ss1 st0))) ∧
    classifyDocument exampleEnumFirstTree [] exampleEnumFirstText =
      [⟨0, 12, .typescript⟩, ⟨13, 16, .typescript⟩] ∧
    classifyDocument exampleAccessFirstTree [] exampleAccessFirstText =
      [⟨0, 3, .javascript⟩, ⟨5, 17, .typescript⟩] := by
  refine ⟨?_, ?_, by decide, by decide⟩
  · have hsplit : ss1 ++ Node.enumDeclaration es ee (some nm) ::
        (ss2 ++ [Node.propertyAccessExpression aS aE (some nm) ach]) =
        (ss1 ++ Node.enumDeclaration es ee (some nm) :: ss2) ++
          [Node.propertyAccessExpression aS aE (some nm) ach] := by
      simp
    rw [hsplit, visitList_append]
    have hmem : nm ∈
        (visitList text (ss1 ++ Node.enumDeclaration es ee (some nm) :: ss2)
          st0).enumNames := by
      rw [visitList_append]
      rw [show visitList text (Node.enumDeclaration es ee (some nm) :: ss2)
          (visitList text ss1 st0) =
        visitList text ss2
          (visit text (Node.enumDeclaration es ee (some nm))
            (visitList text ss1 st0)) from rfl]
      exact visitList_enumNames_mono text ss2 _ nm
        (visit_enum_tracks text es ee nm (visitList text ss1 st0))
    rw [show visitList text [Node.propertyAccessExpression aS aE (some nm) ach]
        (visitList text (ss1 ++ Node.enumDeclaration es ee (some nm) :: ss2) st0) =
      visit text (Node.propertyAccessExpression aS aE (some nm) ach)
        (visitList text (ss1 ++ Node.enumDeclaration es ee (some nm) :: ss2) st0)
      from rfl]
    simp [visit, hmem]
  · rw [show ss1 ++ Node.propertyAccessExpression aS aE (some nm) ach :: ss2 =
      ss1 ++ ([Node.propertyAccessExpression aS aE (some nm) ach] ++ ss2) from by simp]
    rw [visitList_append, visitList_append]
    have hnm : nm ∉ (visitList text ss1 st0).enumNames := by
      intro hmem
      rcases visitList_enumNames_bound text ss1 st0 nm hmem with h | h
      · exact hfresh h
      · exact hnotin h
    rw [show visitList text [Node.propertyAccessExpression aS aE (some nm) ach]
        (visitList text ss1 st0) =
      visit text (Node.propertyAccessExpression aS aE (some nm) ach)
        (visitList text ss1 st0) from rfl]
    simp [visit, hnm]

/-- Witness for C8 at the concrete enum/access pair of `"enum E { A }"`
and `"E.x"`, starting from the fresh per-call state. -/
theorem c8_enum_tracking_order_dependence_witness :
    visitList exampleEnumFirstText
        ([] ++ .enumDeclaration 0 12 (some "E") ::
          ([] ++ [.propertyAccessExpression 13 16 (some "E")
            [.identifier 13 14 "E", .identifier 15 16 "x"]])) ⟨[], []⟩ =
      addRegion 13 16 .typescript
        (visitList exampleEnumFirstText
          ([] ++ .enumDeclaration 0 12 (some "E") :: []) ⟨[], []⟩) ∧
    visitList exampleEnumFirstText
        ([] ++ .propertyAccessExpression 13 16 (some "E")
          [.identifier 13 14 "E", .identifier 15 16 "x"] :: []) ⟨[], []⟩ =
      visitList exampleEnumFirstText []
        (visitList exampleEnumFirstText
          [.identifier 13 14 "E", .identifier 15 16 "x"]
          (addRegion 13 16 .javascript
            (visitList exampleEnumFirstText [] ⟨[], []⟩))) ∧
    classifyDocument exampleEnumFirstTree [] exampleEnumFirstText =
      [⟨0, 12, .typescript⟩, ⟨13, 16, .typescript⟩] ∧
    classifyDocument exampleAccessFirstTree [] exampleAccessFirstText =
      [⟨0, 3, .javascript⟩, ⟨5, 17, .typescript⟩] :=
  c8_enum_tracking_order_dependence exampleEnumFirstText [] [] 0 12 "E" 13 16
    [.identifier 13 14 "E", .identifier 15 16 "x"] ⟨[], []⟩
    (by simp) (by simp [enumNamesInList])

end Classifier
